import Mathlib

/-!
Verification of the greedy fragment-assembly engine in `Lab5/ex1.py`.

Python strings are modelled as `List Char`; the prefix-index dictionary
(`Dict[str, Set[int]]`, read through `.get(p, set())` and popped when a
bucket empties) is modelled as a total function `List Char → List Nat`
where the empty bucket and the absent key coincide; a Python `set` of
fragment identifiers is modelled as a duplicate-free list, insertion
appending when absent (iteration order of a CPython set is pinned to one
concrete order; no claim below depends on it).  Fallible or mutating code
is modelled by explicit state passing.
-/

namespace BioAsm

abbrev Seq := List Char

/-- Python slice `a[-n:]`: the last `n` characters, the whole string when
`n = 0` (since `a[-0:] = a[0:] = a`) or when `n ≥ len(a)`. -/
def pySfx (a : Seq) (n : Nat) : Seq :=
  if n = 0 then a else a.drop (a.length - n)

/-- Python slice `b[:n]` for `n ≥ 0`. -/
def pyPfx (b : Seq) (n : Nat) : Seq :=
  b.take n

/-- The descending scan `for olen in range(max_olap, min_olap - 1, -1)` of
`longest_overlap`, returning the first `olen` at which
`a[-olen:] == b[:olen]`, and `0` when the scan ends. -/
def olScan (a b : Seq) (m : Nat) : Nat → Nat
  | 0 => 0
  | olen+1 =>
    if olen+1 < m then 0
    else if pySfx a (olen+1) = pyPfx b (olen+1) then olen+1
    else olScan a b m olen

/-- `longest_overlap(a, b, min_olap)` from `Lab5/ex1.py`. -/
def longest_overlap (a b : Seq) (min_olap : Nat) : Nat :=
  if pySfx a min_olap ≠ pyPfx b min_olap then 0
  else olScan a b min_olap (min a.length b.length)

/-- `set.add`: append the identifier when absent. -/
def insertL (l : List Nat) (i : Nat) : List Nat :=
  if i ∈ l then l else l ++ [i]

/-- The loop body accumulation of `build_prefix_index`: process the reads
from position `i` onwards (`for i, r in enumerate(reads): if not r or
len(r) < k: continue; idx.setdefault(r[:k], set()).add(i)`). -/
def buildGo (k : Nat) (i : Nat) (l : List (Option Seq)) (idx : Seq → List Nat) :
    Seq → List Nat :=
  match l with
  | [] => idx
  | r :: rest =>
    let idx' : Seq → List Nat :=
      match r with
      | none => idx
      | some s =>
        if s = [] ∨ s.length < k then idx
        else fun p => if p = s.take k then insertL (idx (s.take k)) i else idx p
    buildGo k (i+1) rest idx'

/-- `build_prefix_index(reads, k)` from `Lab5/ex1.py`. -/
def build_prefix_index (reads : List (Option Seq)) (k : Nat) : Seq → List Nat :=
  buildGo k 0 reads (fun _ => [])

/-- The first block of `update_prefix_index` (`if old and len(old) >= k:`):
remove `i` from the bucket of `old`'s `k`-prefix, but only when present
(`if s and i in s`); popping an emptied key is the identity in the
total-function model. -/
def removeOld (idx : Seq → List Nat) (i : Nat) (old : Option Seq) (k : Nat) :
    Seq → List Nat :=
  match old with
  | none => idx
  | some o =>
    if o = [] ∨ o.length < k then idx
    else
      let s := idx (o.take k)
      if s ≠ [] ∧ i ∈ s then
        fun p => if p = o.take k then s.erase i else idx p
      else idx

/-- The second block of `update_prefix_index` (`if new and len(new) >= k:`):
add `i` to the bucket of `new`'s `k`-prefix. -/
def insertNew (idx : Seq → List Nat) (i : Nat) (new : Option Seq) (k : Nat) :
    Seq → List Nat :=
  match new with
  | none => idx
  | some nw =>
    if nw = [] ∨ nw.length < k then idx
    else fun p => if p = nw.take k then insertL (idx (nw.take k)) i else idx p

/-- `update_prefix_index(idx, i, old, new, k)` from `Lab5/ex1.py`: the two
sequential blocks above. -/
def update_prefix_index (idx : Seq → List Nat) (i : Nat)
    (old new : Option Seq) (k : Nat) : Seq → List Nat :=
  insertNew (removeOld idx i old k) i new k

/-- The state mutated by `greedy_assemble_indexed`: the working list
`reads` (with `None` marking retired fragments) and the prefix index. -/
structure AsmState where
  reads : List (Option Seq)
  idx : Seq → List Nat

/-- The inner candidate scan of `greedy_assemble_indexed`
(`for j in list(cand_idxs): ...`), accumulating `(best_j, best_ol)`;
a candidate replaces the accumulator only on a strictly larger overlap
(`if ol > best_ol`). -/
def scanCands (reads : List (Option Seq)) (r : Seq) (min_olap i : Nat) :
    List Nat → Option Nat × Nat → Option Nat × Nat
  | [], acc => acc
  | j :: rest, acc =>
    if j = i then scanCands reads r min_olap i rest acc
    else
      match reads.getD j none with
      | none => scanCands reads r min_olap i rest acc
      | some rj =>
        if rj = [] then scanCands reads r min_olap i rest acc
        else
          let ol := longest_overlap r rj min_olap
          if acc.2 < ol then scanCands reads r min_olap i rest (some j, ol)
          else scanCands reads r min_olap i rest acc

/-- One iteration of `for i, r in enumerate(reads)` in
`greedy_assemble_indexed`: possibly merge fragment `i` with its best
candidate and rebind the index; the returned number is the count of
merges performed (`0` or `1`). -/
def passStep (k min_olap : Nat) (st : AsmState) (i : Nat) : AsmState × Nat :=
  match st.reads.getD i none with
  | none => (st, 0)
  | some r =>
    if r = [] ∨ r.length < k then (st, 0)
    else
      let suf := pySfx r k
      let cands := st.idx suf
      if cands = [] then (st, 0)
      else
        match scanCands st.reads r min_olap i cands (none, 0) with
        | (none, _) => (st, 0)
        | (some j, bol) =>
          if bol < min_olap then (st, 0)
          else
            let old_i := st.reads.getD i none
            let old_j := st.reads.getD j none
            let rj := (st.reads.getD j none).getD []
            let merged := r ++ rj.drop bol
            (⟨(st.reads.set i (some merged)).set j none,
              update_prefix_index
                (update_prefix_index st.idx i old_i (some merged) k)
                j old_j none k⟩, 1)

/-- One full pass of the engine over all fragment positions, returning the
number of merges made in the pass (`made_progress` is its being nonzero). -/
def onePass (k min_olap : Nat) (st : AsmState) : AsmState × Nat :=
  (List.range st.reads.length).foldl
    (fun acc i =>
      let s := passStep k min_olap acc.1 i
      (s.1, acc.2 + s.2))
    (st, 0)

/-- The fixed-point loop `while made_progress:` of `greedy_assemble_indexed`,
with explicit fuel (proved sufficient below), returning the final state,
the number of passes run and the number of merges made. -/
def loopFuel (k min_olap : Nat) : Nat → AsmState → AsmState × Nat × Nat
  | 0, st => (st, 0, 0)
  | f+1, st =>
    let s := onePass k min_olap st
    if s.2 = 0 then (s.1, 1, 0)
    else
      let rest := loopFuel k min_olap f s.1
      (rest.1, rest.2.1 + 1, rest.2.2 + s.2)

/-- `reads = list(reads_in)` followed by `idx = build_prefix_index(reads, k)`. -/
def initState (reads_in : List Seq) (k : Nat) : AsmState :=
  ⟨reads_in.map some, build_prefix_index (reads_in.map some) k⟩

/-- The whole fixed-point iteration of `greedy_assemble_indexed`, run with
fuel `len(reads_in) + 1` (sufficient: see the termination results). -/
def greedyRun (reads_in : List Seq) (k min_olap : Nat) : AsmState × Nat × Nat :=
  loopFuel k min_olap (reads_in.length + 1) (initState reads_in k)

/-- Stable descending insertion by length: the inserted element goes in
front of the first element not longer than it, which is where Python's
stable `contigs.sort(key=len, reverse=True)` puts an element relative to
those originally after it. -/
def insLenDesc (x : Seq) : List Seq → List Seq
  | [] => [x]
  | y :: ys => if y.length ≤ x.length then x :: y :: ys else y :: insLenDesc x ys

/-- Stable sort by descending length (extensionally the unique stable
descending-length sort, hence Python's `sort(key=len, reverse=True)`). -/
def sortLenDesc : List Seq → List Seq
  | [] => []
  | x :: xs => insLenDesc x (sortLenDesc xs)

/-- `contigs = [r for r in reads if r]; contigs.sort(key=len, reverse=True);
return "".join(contigs)`. -/
def finalizeContigs (st : AsmState) : Seq :=
  (sortLenDesc ((st.reads.filterMap id).filter (fun s => s ≠ []))).flatten

/-- `greedy_assemble_indexed(reads_in, k, min_olap)` from `Lab5/ex1.py`. -/
def greedy_assemble_indexed (reads_in : List Seq) (k min_olap : Nat) : Seq :=
  finalizeContigs (greedyRun reads_in k min_olap).1

/-- Count of `Active` (non-`None`) fragments. -/
def activeCount (st : AsmState) : Nat :=
  st.reads.countP (fun o => o.isSome)

/-- Total length of all live fragment sequences. -/
def totalLen (st : AsmState) : Nat :=
  (st.reads.map (fun o => (o.getD []).length)).sum

/-- A heap of list objects addressed by reference, exposing the aliasing
behaviour of `greedy_assemble_indexed`: `reads = list(reads_in)` allocates
a fresh list object and all element assignments target it. -/
structure Heap where
  lists : Nat → List (Option Seq)
  next : Nat

/-- `greedy_assemble_indexed` at the heap level: read the caller's list at
`rin`, copy it into the fresh reference `h.next` (`list(reads_in)`), run
the engine mutating only that copy, and return the heap and the output. -/
def greedy_assemble_heap (h : Heap) (rin k min_olap : Nat) : Heap × Seq :=
  let reads_in := h.lists rin
  let rref := h.next
  let st0 : AsmState := ⟨reads_in, build_prefix_index reads_in k⟩
  let res := loopFuel k min_olap (reads_in.length + 1) st0
  (⟨fun q => if q = rref then res.1.reads else h.lists q, rref + 1⟩,
   finalizeContigs res.1)

/-! Specification-side definitions, written from the spec's words, to be
compared with the code-side definitions above. -/

/-- The spec's notion of a valid overlap of length `L`: the last `L`
characters of `a` equal the first `L` characters of `b`. -/
def specValid (a b : Seq) (L : Nat) : Prop :=
  a.drop (a.length - L) = b.take L

/-- The Overlap Matcher contract of the spec: `L` is the largest integer
with `m ≤ L ≤ min (len a) (len b)` whose suffix/prefix match holds, or
`L = 0` and no such integer exists. -/
def isLargestOverlap (a b : Seq) (m L : Nat) : Prop :=
  (L = 0 ∧ ∀ L', m ≤ L' → L' ≤ min a.length b.length → ¬ specValid a b L')
  ∨ (m ≤ L ∧ L ≤ min a.length b.length ∧ specValid a b L ∧
      ∀ L', m ≤ L' → L' ≤ min a.length b.length → specValid a b L' → L' ≤ L)

/-- The `Active` fragments paired with their identifiers, identifiers
counted from `n`. -/
def activePairsFrom (n : Nat) : List (Option Seq) → List (Nat × Seq)
  | [] => []
  | none :: rest => activePairsFrom (n+1) rest
  | some s :: rest => (n, s) :: activePairsFrom (n+1) rest

/-- Insertion for the spec's ordering: descending sequence length, ties
broken by ascending fragment identifier. -/
def insSpec (x : Nat × Seq) : List (Nat × Seq) → List (Nat × Seq)
  | [] => [x]
  | y :: ys =>
    if y.2.length < x.2.length ∨ (y.2.length = x.2.length ∧ x.1 < y.1)
    then x :: y :: ys
    else y :: insSpec x ys

/-- Sort by the spec's ordering (descending length, then ascending id). -/
def sortSpec : List (Nat × Seq) → List (Nat × Seq)
  | [] => []
  | x :: xs => insSpec x (sortSpec xs)

/-- The Contig Finalizer contract of the spec: collect the fragments still
`Active`, order them by descending length with ties broken by ascending
identifier, and concatenate their sequences. -/
def specFinalize (st : AsmState) : Seq :=
  ((sortSpec (activePairsFrom 0 st.reads)).map Prod.snd).flatten

/-- The prefix-index invariant of the spec: an identifier is in a bucket
exactly when it denotes an `Active` fragment of length at least `k` whose
`k`-prefix is the bucket's key. -/
def IdxWF (st : AsmState) (k : Nat) : Prop :=
  ∀ p i, i ∈ st.idx p ↔
    ∃ s, st.reads.getD i none = some s ∧ k ≤ s.length ∧ s.take k = p

/-- Buckets are duplicate-free (Python sets). -/
def IdxNodup (st : AsmState) : Prop :=
  ∀ p, (st.idx p).Nodup

/-- The full prefix-index invariant. -/
def IdxInv (st : AsmState) (k : Nat) : Prop :=
  IdxWF st k ∧ IdxNodup st

/-! Basic helper lemmas. -/

theorem getD_map_some_mem {l : List Seq} {i : Nat} {r : Seq}
    (h : (l.map some).getD i none = some r) : r ∈ l := by
  rw [List.getD_eq_getElem?_getD] at h
  cases hx : (l.map some)[i]? with
  | none => rw [hx] at h; simp at h
  | some o =>
    rw [hx] at h
    simp only [Option.getD_some] at h
    subst h
    have := List.getElem?_mem hx
    simp only [List.mem_map] at this
    obtain ⟨a, ha, hae⟩ := this
    cases hae
    exact ha

theorem onePass_of_skip {k m : Nat} {st : AsmState}
    (h : ∀ i, passStep k m st i = (st, 0)) : onePass k m st = (st, 0) := by
  unfold onePass
  generalize (List.range st.reads.length) = l
  induction l with
  | nil => rfl
  | cons a t ih =>
    simp only [List.foldl_cons, h a]
    exact ih

theorem passStep_skip_short {k m : Nat} {st : AsmState} {i : Nat}
    (h : ∀ s, st.reads.getD i none = some s → s = [] ∨ s.length < k) :
    passStep k m st i = (st, 0) := by
  unfold passStep
  cases hr : st.reads.getD i none with
  | none => rfl
  | some r => simp only [if_pos (h r hr)]

theorem getD_some_lt {α : Type} {l : List (Option α)} {i : Nat} {s : α}
    (h : l.getD i none = some s) : i < l.length := by
  by_contra hc
  push_neg at hc
  rw [List.getD_eq_getElem?_getD, List.getElem?_eq_none hc] at h
  simp at h

theorem getD_set_self {α : Type} {l : List α} {i : Nat} (a d : α)
    (h : i < l.length) : (l.set i a).getD i d = a := by
  rw [List.getD_eq_getElem?_getD, List.getElem?_set_self h]
  rfl

theorem getD_set_ne {α : Type} {l : List α} {i j : Nat} (a d : α)
    (h : i ≠ j) : (l.set i a).getD j d = l.getD j d := by
  rw [List.getD_eq_getElem?_getD, List.getElem?_set_ne h,
    ← List.getD_eq_getElem?_getD]

theorem olScan_le (a b : Seq) (m : Nat) : ∀ olen, olScan a b m olen ≤ olen := by
  intro olen
  induction olen with
  | zero => exact Nat.le_refl _
  | succ n ih =>
    rw [olScan]
    split
    · exact Nat.zero_le _
    · split
      · exact Nat.le_refl _
      · exact Nat.le_trans ih (Nat.le_succ n)

theorem longest_overlap_le (a b : Seq) (m : Nat) :
    longest_overlap a b m ≤ min a.length b.length := by
  unfold longest_overlap
  split
  · exact Nat.zero_le _
  · exact olScan_le a b m _

theorem scanCands_eq_some (reads : List (Option Seq)) (r : Seq) (m i : Nat) :
    ∀ (cands : List Nat) (acc : Option Nat × Nat) (j bol : Nat),
      scanCands reads r m i cands acc = (some j, bol) →
      acc = (some j, bol)
      ∨ (j ∈ cands ∧ j ≠ i
          ∧ ∃ rj, reads.getD j none = some rj ∧ rj ≠ []
              ∧ bol = longest_overlap r rj m ∧ 0 < bol) := by
  intro cands
  induction cands with
  | nil =>
    intro acc j bol h
    exact Or.inl h
  | cons j' rest ih =>
    intro acc j bol h
    rw [scanCands] at h
    by_cases hji : j' = i
    · rw [if_pos hji] at h
      rcases ih acc j bol h with ha | ⟨hm, hr⟩
      · exact Or.inl ha
      · exact Or.inr ⟨List.mem_cons_of_mem _ hm, hr⟩
    · rw [if_neg hji] at h
      cases hrj : reads.getD j' none with
      | none =>
        rw [hrj] at h
        rcases ih acc j bol h with ha | ⟨hm, hr⟩
        · exact Or.inl ha
        · exact Or.inr ⟨List.mem_cons_of_mem _ hm, hr⟩
      | some rj' =>
        rw [hrj] at h
        dsimp only at h
        by_cases hemp : rj' = []
        · rw [if_pos hemp] at h
          rcases ih acc j bol h with ha | ⟨hm, hr⟩
          · exact Or.inl ha
          · exact Or.inr ⟨List.mem_cons_of_mem _ hm, hr⟩
        · rw [if_neg hemp] at h
          by_cases hol : acc.2 < longest_overlap r rj' m
          · rw [if_pos hol] at h
            rcases ih _ j bol h with ha | ⟨hm, hr⟩
            · have hj : j = j' := by
                have := congrArg Prod.fst ha
                simpa using this.symm
              have hb : bol = longest_overlap r rj' m := by
                have := congrArg Prod.snd ha
                simpa using this.symm
              subst hj
              refine Or.inr ⟨List.mem_cons_self _ _, hji, rj', hrj, hemp, hb, ?_⟩
              omega
            · exact Or.inr ⟨List.mem_cons_of_mem _ hm, hr⟩
          · rw [if_neg hol] at h
            rcases ih acc j bol h with ha | ⟨hm, hr⟩
            · exact Or.inl ha
            · exact Or.inr ⟨List.mem_cons_of_mem _ hm, hr⟩

/-- Either a pass step is a skip, or it merges `i` with a best candidate
`j`: the full characterization of the merge branch. -/
theorem passStep_cases (k m : Nat) (st : AsmState) (i : Nat) :
    (passStep k m st i = (st, 0))
    ∨ ∃ r j rj bol,
        st.reads.getD i none = some r ∧ r ≠ [] ∧ k ≤ r.length
        ∧ j ∈ st.idx (pySfx r k) ∧ j ≠ i
        ∧ st.reads.getD j none = some rj ∧ rj ≠ []
        ∧ bol = longest_overlap r rj m ∧ 0 < bol ∧ m ≤ bol
        ∧ passStep k m st i =
            (⟨(st.reads.set i (some (r ++ rj.drop bol))).set j none,
              update_prefix_index
                (update_prefix_index st.idx i (some r) (some (r ++ rj.drop bol)) k)
                j (some rj) none k⟩, 1) := by
  unfold passStep
  cases hri : st.reads.getD i none with
  | none => exact Or.inl rfl
  | some r =>
    dsimp only
    by_cases hguard : r = [] ∨ r.length < k
    · rw [if_pos hguard]
      exact Or.inl rfl
    · rw [if_neg hguard]
      push_neg at hguard
      by_cases hc : st.idx (pySfx r k) = []
      · rw [if_pos hc]
        exact Or.inl rfl
      · rw [if_neg hc]
        rcases hs : scanCands st.reads r m i (st.idx (pySfx r k)) (none, 0) with ⟨bj, bol⟩
        cases bj with
        | none => exact Or.inl rfl
        | some j =>
          dsimp only
          by_cases hbo : bol < m
          · rw [if_pos hbo]
            exact Or.inl rfl
          · rw [if_neg hbo]
            rcases scanCands_eq_some st.reads r m i _ _ j bol hs with ha | ⟨hmem, hji, rj, hrj, hemp, hbol, hpos⟩
            · exact absurd (congrArg Prod.fst ha) (by simp)
            · refine Or.inr ⟨r, j, rj, bol, rfl, hguard.1, by omega, hmem, hji, hrj, hemp,
                hbol, hpos, by omega, ?_⟩
              rw [hrj]
              rfl

/-! C4 — merge correctness. -/

/-- C4: whenever a pass step performs a merge, fragment `i` absorbed some
fragment `j` with overlap `L = longest_overlap`: the merged sequence's
first `len(i)` characters equal the pre-merge sequence of `i`, and its
last `len(j) - L` characters equal `j`'s pre-merge sequence from position
`L` onward (and `j` is retired). -/
theorem c4_merge_correct (k m : Nat) (st : AsmState) (i : Nat)
    (h : (passStep k m st i).2 = 1) :
    ∃ j r rj bol,
      st.reads.getD i none = some r ∧ st.reads.getD j none = some rj
      ∧ bol = longest_overlap r rj m ∧ bol ≤ rj.length
      ∧ (passStep k m st i).1.reads.getD i none = some (r ++ rj.drop bol)
      ∧ (passStep k m st i).1.reads.getD j none = none
      ∧ (r ++ rj.drop bol).take r.length = r
      ∧ (r ++ rj.drop bol).drop ((r ++ rj.drop bol).length - (rj.length - bol))
          = rj.drop bol := by
  rcases passStep_cases k m st i with hskip | ⟨r, j, rj, bol, hri, _, _, _, hji, hrj, _, hbol, _, _, heq⟩
  · rw [hskip] at h
    simp at h
  · have hble : bol ≤ rj.length := by
      have := longest_overlap_le r rj m
      rw [← hbol] at this
      omega
    refine ⟨j, r, rj, bol, hri, hrj, hbol, hble, ?_, ?_, ?_, ?_⟩
    · rw [heq]
      dsimp only
      rw [getD_set_ne _ _ hji]
      exact getD_set_self _ _ (getD_some_lt hri)
    · rw [heq]
      dsimp only
      exact getD_set_self _ _ (by rw [List.length_set]; exact getD_some_lt hrj)
    · exact List.take_left r (rj.drop bol)
    · have hlen : (r ++ rj.drop bol).length - (rj.length - bol) = r.length := by
        rw [List.length_append, List.length_drop]
        omega
      rw [hlen]
      exact List.drop_left r (rj.drop bol)

/-- C4, witness: the merge performed at position `0` on
`["AAAA", "AAAA"]` with `k = min_olap = 4`. -/
theorem c4_merge_correct_witness :
    (passStep 4 4 (initState [['A', 'A', 'A', 'A'], ['A', 'A', 'A', 'A']] 4) 0).2 = 1
    ∧ ∃ j r rj bol,
        (initState [['A', 'A', 'A', 'A'], ['A', 'A', 'A', 'A']] 4).reads.getD 0 none = some r
        ∧ (initState [['A', 'A', 'A', 'A'], ['A', 'A', 'A', 'A']] 4).reads.getD j none = some rj
        ∧ bol = longest_overlap r rj 4 ∧ bol ≤ rj.length
        ∧ (passStep 4 4 (initState [['A', 'A', 'A', 'A'], ['A', 'A', 'A', 'A']] 4) 0).1.reads.getD 0 none
            = some (r ++ rj.drop bol)
        ∧ (passStep 4 4 (initState [['A', 'A', 'A', 'A'], ['A', 'A', 'A', 'A']] 4) 0).1.reads.getD j none = none
        ∧ (r ++ rj.drop bol).take r.length = r
        ∧ (r ++ rj.drop bol).drop ((r ++ rj.drop bol).length - (rj.length - bol))
            = rj.drop bol :=
  ⟨by decide, c4_merge_correct 4 4 (initState [['A', 'A', 'A', 'A'], ['A', 'A', 'A', 'A']] 4) 0 (by decide)⟩

/-! C10 — the caller's list is never mutated. -/

/-- C10: at the heap level, `greedy_assemble_indexed` copies the caller's
list into a fresh reference (`reads = list(reads_in)`) and every element
assignment targets that copy, so after the call the caller's list holds
exactly the same elements in the same order; moreover the returned output
agrees with the pure function of the caller's list value. -/
theorem c10_frame (h : Heap) (rin k m : Nat) (hv : rin < h.next) :
    (greedy_assemble_heap h rin k m).1.lists rin = h.lists rin
    ∧ ∀ reads_in : List Seq, h.lists rin = reads_in.map some →
        (greedy_assemble_heap h rin k m).2 = greedy_assemble_indexed reads_in k m := by
  constructor
  · show (fun q => if q = h.next then _ else h.lists q) rin = h.lists rin
    have : rin ≠ h.next := by omega
    simp only [if_neg this]
  · intro reads_in hl
    show finalizeContigs
        (loopFuel k m ((h.lists rin).length + 1)
          ⟨h.lists rin, build_prefix_index (h.lists rin) k⟩).1
      = greedy_assemble_indexed reads_in k m
    rw [hl, List.length_map]
    rfl

/-- C10, witness: a one-element heap holding the list `["A"]`. -/
theorem c10_frame_witness :
    (0 : Nat) < 1
    ∧ (greedy_assemble_heap ⟨fun q => if q = 0 then [some ['A']] else [], 1⟩ 0 1 1).1.lists 0
        = (fun q : Nat => if q = 0 then [some ['A']] else ([] : List (Option Seq))) 0
    ∧ (greedy_assemble_heap ⟨fun q => if q = 0 then [some ['A']] else [], 1⟩ 0 1 1).2
        = greedy_assemble_indexed [['A']] 1 1 :=
  ⟨by decide,
    (c10_frame ⟨fun q => if q = 0 then [some ['A']] else [], 1⟩ 0 1 1 (by decide)).1,
    (c10_frame ⟨fun q => if q = 0 then [some ['A']] else [], 1⟩ 0 1 1 (by decide)).2
      [['A']] rfl⟩

/-! Active-count accounting for the termination and length claims. -/

theorem getElem_eq_of_getD {α : Type} {l : List (Option α)} {i : Nat} {s : α}
    (h : l.getD i none = some s) (hlt : i < l.length) : l[i] = some s := by
  rw [List.getD_eq_getElem?_getD, List.getElem?_eq_getElem hlt] at h
  simpa using h

theorem countP_set_acc {α : Type} (p : α → Bool) (l : List α) (n : Nat) (a : α)
    (h : n < l.length) :
    (l.set n a).countP p + (if p l[n] then 1 else 0)
      = l.countP p + (if p a then 1 else 0) := by
  induction l generalizing n with
  | nil => simp at h
  | cons x t ih =>
    cases n with
    | zero =>
      simp only [List.set_cons_zero, List.countP_cons, List.getElem_cons_zero]
      omega
    | succ n' =>
      simp only [List.set_cons_succ, List.countP_cons, List.getElem_cons_succ]
      have := ih n' (by simpa using h)
      omega

theorem sum_map_set_acc {α : Type} (f : α → Nat) (l : List α) (n : Nat) (a : α)
    (h : n < l.length) :
    ((l.set n a).map f).sum + f l[n] = (l.map f).sum + f a := by
  induction l generalizing n with
  | nil => simp at h
  | cons x t ih =>
    cases n with
    | zero =>
      simp only [List.set_cons_zero, List.map_cons, List.sum_cons,
        List.getElem_cons_zero]
      omega
    | succ n' =>
      simp only [List.set_cons_succ, List.map_cons, List.sum_cons,
        List.getElem_cons_succ]
      have := ih n' (by simpa using h)
      omega

theorem activeCount_pos_of_getD {st : AsmState} {i : Nat} {s : Seq}
    (h : st.reads.getD i none = some s) : 1 ≤ activeCount st := by
  have hlt : i < st.reads.length := getD_some_lt h
  have hmem : (some s) ∈ st.reads := by
    rw [← getElem_eq_of_getD h hlt]
    exact List.getElem_mem hlt
  unfold activeCount
  rw [Nat.succ_le_iff, List.countP_pos_iff]
  exact ⟨some s, hmem, rfl⟩

theorem activeCount_passStep (k m : Nat) (st : AsmState) (i : Nat) :
    activeCount (passStep k m st i).1 + (passStep k m st i).2 = activeCount st := by
  rcases passStep_cases k m st i with hskip | ⟨r, j, rj, bol, hri, _, _, _, hji, hrj, _, _, _, _, heq⟩
  · rw [hskip]
    rfl
  · rw [heq]
    have hilt : i < st.reads.length := getD_some_lt hri
    have hjlt : j < st.reads.length := getD_some_lt hrj
    have hi : st.reads[i] = some r := getElem_eq_of_getD hri hilt
    have hj : st.reads[j] = some rj := getElem_eq_of_getD hrj hjlt
    show ((st.reads.set i (some (r ++ rj.drop bol))).set j none).countP
        (fun o => o.isSome) + 1 = st.reads.countP (fun o => o.isSome)
    have h1 := countP_set_acc (fun o => o.isSome) st.reads i
      (some (r ++ rj.drop bol)) hilt
    have hjlt' : j < (st.reads.set i (some (r ++ rj.drop bol))).length := by
      rw [List.length_set]; exact hjlt
    have h2 := countP_set_acc (fun o => o.isSome)
      (st.reads.set i (some (r ++ rj.drop bol))) j none hjlt'
    have hgj : (st.reads.set i (some (r ++ rj.drop bol)))[j] = some rj := by
      rw [List.getElem_set_ne (by omega)]
      exact hj
    rw [hi] at h1
    rw [hgj] at h2
    simp at h1 h2
    omega

theorem totalLen_passStep (k m : Nat) (st : AsmState) (i : Nat) :
    totalLen (passStep k m st i).1 + (passStep k m st i).2
      ≤ totalLen st := by
  rcases passStep_cases k m st i with hskip | ⟨r, j, rj, bol, hri, _, _, _, hji, hrj, _, hbol, hpos, _, heq⟩
  · rw [hskip]
    exact Nat.le_refl _
  · rw [heq]
    have hilt : i < st.reads.length := getD_some_lt hri
    have hjlt : j < st.reads.length := getD_some_lt hrj
    have hi : st.reads[i] = some r := getElem_eq_of_getD hri hilt
    have hj : st.reads[j] = some rj := getElem_eq_of_getD hrj hjlt
    have hble : bol ≤ rj.length := by
      have := longest_overlap_le r rj m
      omega
    show totalLen ⟨(st.reads.set i (some (r ++ rj.drop bol))).set j none, _⟩ + 1
        ≤ totalLen st
    unfold totalLen
    dsimp only
    have h1 := sum_map_set_acc (fun o => ((o : Option Seq).getD []).length)
      st.reads i (some (r ++ rj.drop bol)) hilt
    have hjlt' : j < (st.reads.set i (some (r ++ rj.drop bol))).length := by
      rw [List.length_set]; exact hjlt
    have h2 := sum_map_set_acc (fun o => ((o : Option Seq).getD []).length)
      (st.reads.set i (some (r ++ rj.drop bol))) j none hjlt'
    have hgj : (st.reads.set i (some (r ++ rj.drop bol)))[j] = some rj := by
      rw [List.getElem_set_ne (by omega)]
      exact hj
    rw [hi] at h1
    rw [hgj] at h2
    simp only [Option.getD_some, Option.getD_none, List.length_append,
      List.length_drop, List.length_nil] at h1 h2
    omega

theorem foldl_snd_mono (k m : Nat) :
    ∀ (l : List Nat) (acc : AsmState × Nat),
      acc.2 ≤ (l.foldl (fun acc i =>
        let s := passStep k m acc.1 i
        (s.1, acc.2 + s.2)) acc).2 := by
  intro l
  induction l with
  | nil => intro acc; exact Nat.le_refl _
  | cons a t ih =>
    intro acc
    refine Nat.le_trans ?_ (ih _)
    exact Nat.le_add_right _ _

theorem activeCount_foldl (k m : Nat) :
    ∀ (l : List Nat) (acc : AsmState × Nat),
      activeCount (l.foldl (fun acc i =>
          let s := passStep k m acc.1 i
          (s.1, acc.2 + s.2)) acc).1
        + (l.foldl (fun acc i =>
          let s := passStep k m acc.1 i
          (s.1, acc.2 + s.2)) acc).2
      = activeCount acc.1 + acc.2 := by
  intro l
  induction l with
  | nil => intro acc; rfl
  | cons a t ih =>
    intro acc
    rw [List.foldl_cons, ih]
    dsimp only
    have := activeCount_passStep k m acc.1 a
    omega

theorem activeCount_onePass (k m : Nat) (st : AsmState) :
    activeCount (onePass k m st).1 + (onePass k m st).2 = activeCount st := by
  unfold onePass
  rw [activeCount_foldl]
  rfl

theorem totalLen_foldl (k m : Nat) :
    ∀ (l : List Nat) (acc : AsmState × Nat),
      totalLen (l.foldl (fun acc i =>
          let s := passStep k m acc.1 i
          (s.1, acc.2 + s.2)) acc).1
        + (l.foldl (fun acc i =>
          let s := passStep k m acc.1 i
          (s.1, acc.2 + s.2)) acc).2
      ≤ totalLen acc.1 + acc.2 := by
  intro l
  induction l with
  | nil => intro acc; exact Nat.le_refl _
  | cons a t ih =>
    intro acc
    rw [List.foldl_cons]
    refine Nat.le_trans (ih _) ?_
    dsimp only
    have := totalLen_passStep k m acc.1 a
    omega

theorem totalLen_onePass (k m : Nat) (st : AsmState) :
    totalLen (onePass k m st).1 + (onePass k m st).2 ≤ totalLen st := by
  unfold onePass
  exact totalLen_foldl k m _ (st, 0)

theorem passStep_active_pos (k m : Nat) (st : AsmState) (i : Nat)
    (h : (passStep k m st i).2 = 1) : 1 ≤ activeCount (passStep k m st i).1 := by
  rcases passStep_cases k m st i with hskip | ⟨r, j, rj, bol, hri, _, _, _, hji, hrj, _, _, _, _, heq⟩
  · rw [hskip] at h
    simp at h
  · have hilt : i < st.reads.length := getD_some_lt hri
    have : (passStep k m st i).1.reads.getD i none = some (r ++ rj.drop bol) := by
      rw [heq]
      dsimp only
      rw [getD_set_ne _ _ hji]
      exact getD_set_self _ _ hilt
    exact activeCount_pos_of_getD this

theorem onePass_active_pos (k m : Nat) (st : AsmState)
    (h : 0 < (onePass k m st).2) : 1 ≤ activeCount (onePass k m st).1 := by
  unfold onePass at h ⊢
  suffices hgen : ∀ (l : List Nat) (acc : AsmState × Nat),
      (0 < acc.2 → 1 ≤ activeCount acc.1) →
      0 < (l.foldl (fun acc i =>
          let s := passStep k m acc.1 i
          (s.1, acc.2 + s.2)) acc).2 →
      1 ≤ activeCount (l.foldl (fun acc i =>
          let s := passStep k m acc.1 i
          (s.1, acc.2 + s.2)) acc).1 by
    exact hgen _ (st, 0) (by intro hc; simp at hc) h
  intro l
  induction l with
  | nil =>
    intro acc hacc hp
    exact hacc hp
  | cons a t ih =>
    intro acc hacc hp
    rw [List.foldl_cons] at hp ⊢
    refine ih _ ?_ hp
    intro hc
    dsimp only at hc ⊢
    rcases passStep_cases k m acc.1 a with hskip | ⟨r, j, rj, bol, hri, _, _, _, hji, hrj, _, _, _, _, heq⟩
    · rw [hskip] at hc ⊢
      exact hacc (by simpa using hc)
    · have h1 : (passStep k m acc.1 a).2 = 1 := by rw [heq]
      
      exact passStep_active_pos k m acc.1 a h1

theorem foldl_snd_eq_fixed (k m : Nat) :
    ∀ (l : List Nat) (acc : AsmState × Nat),
      (l.foldl (fun acc i =>
          let s := passStep k m acc.1 i
          (s.1, acc.2 + s.2)) acc).2 = acc.2 →
      (l.foldl (fun acc i =>
          let s := passStep k m acc.1 i
          (s.1, acc.2 + s.2)) acc).1 = acc.1 := by
  intro l
  induction l with
  | nil =>
    intro acc _
    rfl
  | cons a t ih =>
    intro acc hc
    rw [List.foldl_cons] at hc ⊢
    rcases passStep_cases k m acc.1 a with hskip | ⟨r, j, rj, bol, hri, _, _, _, hji, hrj, _, _, _, _, heq⟩
    · dsimp only at hc ⊢
      rw [hskip] at hc ⊢
      exact ih (acc.1, acc.2 + 0) hc
    · exfalso
      dsimp only at hc
      rw [heq] at hc
      dsimp only at hc
      have hmono := foldl_snd_mono k m t
        ((passStep k m acc.1 a).1, acc.2 + 1)
      rw [heq] at hmono
      dsimp only at hmono
      omega

theorem onePass_zero_fixed (k m : Nat) (st : AsmState)
    (h : (onePass k m st).2 = 0) : (onePass k m st).1 = st := by
  unfold onePass at h ⊢
  exact foldl_snd_eq_fixed k m _ (st, 0) h

/-- Fuel of at least `max 1 (activeCount st)` suffices for the fixed-point
loop: the pass and merge counts are bounded, the final state is a fixed
point of `onePass`, and any larger fuel computes the same result. -/
theorem loopFuel_bounds (k m : Nat) :
    ∀ (f : Nat) (st : AsmState), max 1 (activeCount st) ≤ f →
      (loopFuel k m f st).2.1 ≤ max 1 (activeCount st)
      ∧ (loopFuel k m f st).2.2 + 1 ≤ max 1 (activeCount st)
      ∧ onePass k m (loopFuel k m f st).1 = ((loopFuel k m f st).1, 0)
      ∧ ∀ f', f ≤ f' → loopFuel k m f' st = loopFuel k m f st := by
  intro f
  induction f with
  | zero =>
    intro st h
    exact absurd (Nat.le_trans (Nat.le_max_left 1 _) h) (by omega)
  | succ f ih =>
    intro st hf
    by_cases hc : (onePass k m st).2 = 0
    · have hfix : (onePass k m st).1 = st := onePass_zero_fixed k m st hc
      have hlf : loopFuel k m (f+1) st = ((onePass k m st).1, 1, 0) := by
        rw [loopFuel]
        dsimp only
        rw [if_pos hc]
      have hop : onePass k m st = (st, 0) := by
        rw [Prod.ext_iff]
        exact ⟨hfix, hc⟩
      refine ⟨?_, ?_, ?_, ?_⟩
      · rw [hlf]
        exact Nat.le_max_left 1 _
      · rw [hlf]
        exact Nat.le_max_left 1 _
      · rw [hlf]
        dsimp only
        rw [hfix]
        exact hop
      · intro f' hf'
        rcases f' with _ | f''
        · omega
        · rw [hlf, loopFuel]
          dsimp only
          rw [if_pos hc]
    · have hact := activeCount_onePass k m st
      have hpos : 1 ≤ activeCount (onePass k m st).1 :=
        onePass_active_pos k m st (Nat.pos_of_ne_zero hc)
      have hcpos : 1 ≤ (onePass k m st).2 := Nat.pos_of_ne_zero hc
      have hm1 : max 1 (activeCount st) = activeCount st :=
        Nat.max_eq_right (by omega)
      have hm2 : max 1 (activeCount (onePass k m st).1)
          = activeCount (onePass k m st).1 :=
        Nat.max_eq_right hpos
      have hstep : max 1 (activeCount (onePass k m st).1) ≤ f := by
        rw [hm2]
        rw [hm1] at hf
        omega
      obtain ⟨ihp, ihm, ihfix, ihstab⟩ := ih (onePass k m st).1 hstep
      have hlf : loopFuel k m (f+1) st
          = ((loopFuel k m f (onePass k m st).1).1,
             (loopFuel k m f (onePass k m st).1).2.1 + 1,
             (loopFuel k m f (onePass k m st).1).2.2 + (onePass k m st).2) := by
        rw [loopFuel]
        dsimp only
        rw [if_neg hc]
      refine ⟨?_, ?_, ?_, ?_⟩
      · rw [hlf, hm1]
        rw [hm2] at ihp
        dsimp only
        omega
      · rw [hlf, hm1]
        rw [hm2] at ihm
        dsimp only
        omega
      · rw [hlf]
        exact ihfix
      · intro f' hf'
        rcases f' with _ | f''
        · omega
        · rw [hlf, loopFuel]
          dsimp only
          rw [if_neg hc, ihstab f'' (by omega)]

theorem activeCount_initState (reads_in : List Seq) (k : Nat) :
    activeCount (initState reads_in k) = reads_in.length := by
  unfold activeCount initState
  dsimp only
  rw [List.countP_map]
  simp [Function.comp]

/-! C3 — termination and pass/merge bounds. -/

/-- C3: the claim bounds the run by `N` full passes; on the empty input
(`N = 0`) the engine still executes one (trivial, zero-merge) pass before
stopping, so the bound `N` fails at `N = 0`. -/
theorem c3_counterexample :
    (greedyRun ([] : List Seq) 1 1).2.1 = 1
    ∧ ¬ ((greedyRun ([] : List Seq) 1 1).2.1 ≤ ([] : List Seq).length) := by
  decide

/-- C3 amended: for every input of `N` fragments the engine halts — fuel
`N + 1` reaches the fixed point and any larger fuel computes the same
result — performing at most `N - 1` successful merges (each merge strictly
reduces the `Active` count by one, stated here as `merges + 1 ≤ max 1 N`)
and at most `max 1 N` full passes (`N` passes when `N ≥ 1`; the empty
input still runs one trivial pass), the last pass producing zero merges
(the final state is a fixed point of `onePass`). -/
theorem c3_amended (reads_in : List Seq) (k m f : Nat)
    (hf : reads_in.length + 1 ≤ f) :
    loopFuel k m f (initState reads_in k) = greedyRun reads_in k m
    ∧ (greedyRun reads_in k m).2.1 ≤ max 1 reads_in.length
    ∧ (greedyRun reads_in k m).2.2 + 1 ≤ max 1 reads_in.length
    ∧ onePass k m (greedyRun reads_in k m).1
        = ((greedyRun reads_in k m).1, 0) := by
  have hN := activeCount_initState reads_in k
  have hb : max 1 (activeCount (initState reads_in k)) ≤ reads_in.length + 1 := by
    rw [hN]
    exact Nat.max_le.mpr ⟨by omega, by omega⟩
  obtain ⟨hp, hm, hfix, hstab⟩ :=
    loopFuel_bounds k m (reads_in.length + 1) (initState reads_in k) hb
  rw [hN] at hp hm
  exact ⟨hstab f hf, hp, hm, hfix⟩

/-- C3 amended, witness: the single-fragment input `["A"]` with fuel 2. -/
theorem c3_amended_witness :
    ([['A']] : List Seq).length + 1 ≤ 2
    ∧ (loopFuel 1 1 2 (initState [['A']] 1) = greedyRun [['A']] 1 1
        ∧ (greedyRun [['A']] 1 1).2.1 ≤ max 1 ([['A']] : List Seq).length
        ∧ (greedyRun [['A']] 1 1).2.2 + 1 ≤ max 1 ([['A']] : List Seq).length
        ∧ onePass 1 1 (greedyRun [['A']] 1 1).1 = ((greedyRun [['A']] 1 1).1, 0)) :=
  ⟨by decide, c3_amended [['A']] 1 1 2 (by decide)⟩

theorem totalLen_loopFuel (k m : Nat) :
    ∀ (f : Nat) (st : AsmState),
      totalLen (loopFuel k m f st).1 + (loopFuel k m f st).2.2 ≤ totalLen st := by
  intro f
  induction f with
  | zero =>
    intro st
    exact Nat.le_refl _
  | succ f ih =>
    intro st
    have hone := totalLen_onePass k m st
    by_cases hc : (onePass k m st).2 = 0
    · rw [loopFuel]
      dsimp only
      rw [if_pos hc]
      dsimp only
      omega
    · rw [loopFuel]
      dsimp only
      rw [if_neg hc]
      dsimp only
      have := ih (onePass k m st).1
      omega

theorem sum_len_insLenDesc (x : Seq) (l : List Seq) :
    ((insLenDesc x l).map List.length).sum = x.length + (l.map List.length).sum := by
  induction l with
  | nil => simp [insLenDesc]
  | cons y ys ih =>
    rw [insLenDesc]
    split
    · simp
    · simp only [List.map_cons, List.sum_cons, ih]
      omega

theorem sum_len_sortLenDesc (l : List Seq) :
    ((sortLenDesc l).map List.length).sum = (l.map List.length).sum := by
  induction l with
  | nil => rfl
  | cons x xs ih =>
    rw [sortLenDesc, sum_len_insLenDesc, ih]
    simp

theorem sum_len_filter_ne_nil (l : List Seq) :
    ((l.filter (fun s => s ≠ [])).map List.length).sum = (l.map List.length).sum := by
  induction l with
  | nil => rfl
  | cons x xs ih =>
    by_cases hx : x = []
    · subst hx
      rw [List.filter_cons_of_neg (by simp)]
      rw [ih]
      simp
    · rw [List.filter_cons_of_pos (by simpa using hx)]
      simp only [List.map_cons, List.sum_cons, ih]

theorem sum_len_filterMap_id (l : List (Option Seq)) :
    ((l.filterMap id).map List.length).sum
      = (l.map (fun o => (o.getD []).length)).sum := by
  induction l with
  | nil => rfl
  | cons x xs ih =>
    cases x with
    | none => simpa using ih
    | some s => simpa using ih

theorem length_finalizeContigs (st : AsmState) :
    (finalizeContigs st).length = totalLen st := by
  unfold finalizeContigs totalLen
  rw [List.length_flatten, sum_len_sortLenDesc, sum_len_filter_ne_nil,
    sum_len_filterMap_id]

theorem totalLen_initState (reads_in : List Seq) (k : Nat) :
    totalLen (initState reads_in k) = (reads_in.map List.length).sum := by
  unfold totalLen initState
  dsimp only
  rw [List.map_map]
  rfl

/-! C5 — length bound on the assembled output. -/

/-- C5: the length of the assembled output is at most the sum of the
input fragment lengths, and equality forces the run to have performed no
merges (every merge removes at least one overlapped character). -/
theorem c5_length_bound (reads_in : List Seq) (k m : Nat) :
    (greedy_assemble_indexed reads_in k m).length ≤ (reads_in.map List.length).sum
    ∧ ((greedy_assemble_indexed reads_in k m).length = (reads_in.map List.length).sum
        → (greedyRun reads_in k m).2.2 = 0) := by
  have hloop := totalLen_loopFuel k m (reads_in.length + 1) (initState reads_in k)
  have hlen : (greedy_assemble_indexed reads_in k m).length
      = totalLen (greedyRun reads_in k m).1 :=
    length_finalizeContigs _
  have hinit := totalLen_initState reads_in k
  have hg : greedyRun reads_in k m
      = loopFuel k m (reads_in.length + 1) (initState reads_in k) := rfl
  rw [hg] at hlen
  constructor
  · rw [hlen, ← hinit]
    omega
  · intro he
    rw [hlen, ← hinit] at he
    rw [hg]
    omega

/-! Equivalence of the code's stable length sort on plain sequences with
the spec's (length desc, identifier asc) sort on identifier/sequence
pairs, for the Contig Finalizer claim. -/

theorem mem_insSpec {x y : Nat × Seq} {l : List (Nat × Seq)}
    (h : y ∈ insSpec x l) : y = x ∨ y ∈ l := by
  induction l with
  | nil =>
    rw [insSpec] at h
    simp at h
    exact Or.inl h
  | cons z zs ih =>
    rw [insSpec] at h
    split at h
    · rcases List.mem_cons.mp h with h1 | h1
      · exact Or.inl h1
      · exact Or.inr h1
    · rcases List.mem_cons.mp h with h1 | h1
      · exact Or.inr (by simp [h1])
      · rcases ih h1 with h2 | h2
        · exact Or.inl h2
        · exact Or.inr (List.mem_cons_of_mem _ h2)

theorem mem_sortSpec {y : Nat × Seq} : ∀ {l : List (Nat × Seq)},
    y ∈ sortSpec l → y ∈ l := by
  intro l
  induction l with
  | nil => intro h; exact h
  | cons x xs ih =>
    intro h
    rw [sortSpec] at h
    rcases mem_insSpec h with h1 | h1
    · simp [h1]
    · exact List.mem_cons_of_mem _ (ih h1)

theorem map_snd_insSpec (x : Nat × Seq) :
    ∀ (l : List (Nat × Seq)), (∀ y ∈ l, x.1 < y.1) →
      (insSpec x l).map Prod.snd = insLenDesc x.2 (l.map Prod.snd) := by
  intro l
  induction l with
  | nil => intro _; rfl
  | cons y ys ih =>
    intro h
    rw [insSpec, List.map_cons, insLenDesc]
    by_cases hle : y.2.length ≤ x.2.length
    · have hcond : y.2.length < x.2.length ∨ (y.2.length = x.2.length ∧ x.1 < y.1) := by
        rcases Nat.lt_or_ge y.2.length x.2.length with h1 | h1
        · exact Or.inl h1
        · exact Or.inr ⟨by omega, h y (List.mem_cons_self _ _)⟩
      rw [if_pos hcond, if_pos hle]
      rfl
    · have hcond : ¬(y.2.length < x.2.length ∨ (y.2.length = x.2.length ∧ x.1 < y.1)) := by
        intro hc
        rcases hc with h1 | ⟨h1, _⟩ <;> omega
      rw [if_neg hcond, if_neg hle, List.map_cons,
        ih (fun z hz => h z (List.mem_cons_of_mem _ hz))]

theorem map_snd_sortSpec :
    ∀ (l : List (Nat × Seq)), l.Pairwise (fun a b => a.1 < b.1) →
      (sortSpec l).map Prod.snd = sortLenDesc (l.map Prod.snd) := by
  intro l
  induction l with
  | nil => intro _; rfl
  | cons x xs ih =>
    intro h
    rw [List.pairwise_cons] at h
    rw [sortSpec, List.map_cons, sortLenDesc, ← ih h.2]
    exact map_snd_insSpec x (sortSpec xs) (fun y hy => h.1 y (mem_sortSpec hy))

theorem map_snd_activePairsFrom :
    ∀ (n : Nat) (l : List (Option Seq)),
      (activePairsFrom n l).map Prod.snd = l.filterMap id := by
  intro n l
  induction l generalizing n with
  | nil => rfl
  | cons x xs ih =>
    cases x with
    | none =>
      rw [activePairsFrom]
      simpa using ih (n+1)
    | some s =>
      rw [activePairsFrom]
      simpa using ih (n+1)

theorem fst_mem_activePairsFrom {y : Nat × Seq} :
    ∀ (n : Nat) (l : List (Option Seq)), y ∈ activePairsFrom n l → n ≤ y.1 := by
  intro n l
  induction l generalizing n with
  | nil => intro h; exact absurd h (List.not_mem_nil _)
  | cons x xs ih =>
    cases x with
    | none =>
      intro h
      have := ih (n+1) h
      omega
    | some s =>
      intro h
      rcases List.mem_cons.mp h with h1 | h1
      · subst h1
        exact Nat.le_refl _
      · have := ih (n+1) h1
        omega

theorem pairwise_activePairsFrom :
    ∀ (n : Nat) (l : List (Option Seq)),
      (activePairsFrom n l).Pairwise (fun a b => a.1 < b.1) := by
  intro n l
  induction l generalizing n with
  | nil => exact List.Pairwise.nil
  | cons x xs ih =>
    cases x with
    | none => exact ih (n+1)
    | some s =>
      rw [activePairsFrom, List.pairwise_cons]
      refine ⟨?_, ih (n+1)⟩
      intro y hy
      have := fst_mem_activePairsFrom (n+1) xs hy
      omega

theorem mem_insLenDesc {x y : Seq} {l : List Seq}
    (h : y ∈ insLenDesc x l) : y = x ∨ y ∈ l := by
  induction l with
  | nil =>
    rw [insLenDesc] at h
    simp at h
    exact Or.inl h
  | cons z zs ih =>
    rw [insLenDesc] at h
    split at h
    · rcases List.mem_cons.mp h with h1 | h1
      · exact Or.inl h1
      · exact Or.inr h1
    · rcases List.mem_cons.mp h with h1 | h1
      · exact Or.inr (by simp [h1])
      · rcases ih h1 with h2 | h2
        · exact Or.inl h2
        · exact Or.inr (List.mem_cons_of_mem _ h2)

theorem sorted_insLenDesc (x : Seq) :
    ∀ (l : List Seq), l.Pairwise (fun a b => b.length ≤ a.length) →
      (insLenDesc x l).Pairwise (fun a b => b.length ≤ a.length) := by
  intro l
  induction l with
  | nil =>
    intro _
    simp [insLenDesc]
  | cons y ys ih =>
    intro h
    rw [List.pairwise_cons] at h
    rw [insLenDesc]
    by_cases hle : y.length ≤ x.length
    · rw [if_pos hle, List.pairwise_cons]
      refine ⟨?_, List.pairwise_cons.mpr h⟩
      intro z hz
      rcases List.mem_cons.mp hz with h1 | h1
      · subst h1
        exact hle
      · have := h.1 z h1
        omega
    · rw [if_neg hle, List.pairwise_cons]
      refine ⟨?_, ih h.2⟩
      intro z hz
      rcases mem_insLenDesc hz with h1 | h1
      · subst h1
        omega
      · exact h.1 z h1

theorem sorted_sortLenDesc :
    ∀ (l : List Seq), (sortLenDesc l).Pairwise (fun a b => b.length ≤ a.length) := by
  intro l
  induction l with
  | nil => exact List.Pairwise.nil
  | cons x xs ih =>
    rw [sortLenDesc]
    exact sorted_insLenDesc x _ ih

theorem filter_insLenDesc_nil :
    ∀ (l : List Seq),
      (insLenDesc [] l).filter (fun s => s ≠ []) = l.filter (fun s => s ≠ []) := by
  intro l
  induction l with
  | nil =>
    rw [insLenDesc]
    rfl
  | cons y ys ih =>
    rw [insLenDesc]
    by_cases hle : y.length ≤ ([] : Seq).length
    · rw [if_pos hle]
      have hy : y = [] := List.eq_nil_of_length_eq_zero (by simpa using hle)
      subst hy
      rw [List.filter_cons_of_neg (by simp)]
    · rw [if_neg hle]
      have hy : y ≠ [] := by
        intro hc
        subst hc
        exact hle (Nat.le_refl _)
      rw [List.filter_cons_of_pos (by simpa using hy),
        List.filter_cons_of_pos (by simpa using hy), ih]

theorem filter_eq_nil_of_all_nil {l : List Seq}
    (h : ∀ z ∈ l, z = []) : l.filter (fun s => s ≠ []) = [] := by
  induction l with
  | nil => rfl
  | cons y ys ih =>
    have hy : y = [] := h y (List.mem_cons_self _ _)
    subst hy
    rw [List.filter_cons_of_neg (by simp)]
    exact ih (fun z hz => h z (List.mem_cons_of_mem _ hz))

theorem filter_insLenDesc (x : Seq) (hx : x ≠ []) :
    ∀ (l : List Seq), l.Pairwise (fun a b => b.length ≤ a.length) →
      (insLenDesc x l).filter (fun s => s ≠ [])
        = insLenDesc x (l.filter (fun s => s ≠ [])) := by
  intro l
  induction l with
  | nil =>
    intro _
    rw [insLenDesc, List.filter_cons_of_pos (by simpa using hx)]
    rfl
  | cons y ys ih =>
    intro h
    rw [List.pairwise_cons] at h
    rw [insLenDesc]
    by_cases hle : y.length ≤ x.length
    · rw [if_pos hle, List.filter_cons_of_pos (by simpa using hx)]
      by_cases hy : y = []
      · subst hy
        rw [List.filter_cons_of_neg (by simp)]
        have hall : ∀ z ∈ ys, z = [] := by
          intro z hz
          have := h.1 z hz
          exact List.eq_nil_of_length_eq_zero (by simpa using this)
        rw [filter_eq_nil_of_all_nil hall]
        rfl
      · rw [List.filter_cons_of_pos (by simpa using hy), insLenDesc, if_pos hle]
    · rw [if_neg hle]
      have hy : y ≠ [] := by
        intro hc
        subst hc
        simp at hle
      rw [List.filter_cons_of_pos (by simpa using hy),
        List.filter_cons_of_pos (by simpa using hy), ih h.2,
        insLenDesc, if_neg hle]

theorem filter_sortLenDesc :
    ∀ (l : List Seq),
      (sortLenDesc l).filter (fun s => s ≠ [])
        = sortLenDesc (l.filter (fun s => s ≠ [])) := by
  intro l
  induction l with
  | nil => rfl
  | cons x xs ih =>
    rw [sortLenDesc]
    by_cases hx : x = []
    · subst hx
      rw [List.filter_cons_of_neg (by simp), filter_insLenDesc_nil, ih]
    · rw [List.filter_cons_of_pos (by simpa using hx), sortLenDesc, ← ih]
      exact filter_insLenDesc x hx _ (sorted_sortLenDesc xs)

theorem flatten_filter_ne_nil :
    ∀ (l : List Seq), (l.filter (fun s => s ≠ [])).flatten = l.flatten := by
  intro l
  induction l with
  | nil => rfl
  | cons x xs ih =>
    by_cases hx : x = []
    · subst hx
      rw [List.filter_cons_of_neg (by simp)]
      simpa using ih
    · rw [List.filter_cons_of_pos (by simpa using hx)]
      simp only [List.flatten_cons, ih]

/-! C6 — the Contig Finalizer. -/

/-- C6: at the fixed point the finalizer's output equals the spec's
description: collect exactly the `Active` fragments, order them by
descending sequence length with ties broken by ascending fragment
identifier, and concatenate their sequences (the code's
`[r for r in reads if r]` additionally drops empty `Active` sequences,
which contribute nothing to the concatenation; Python's stable
`sort(key=len, reverse=True)` over the identifier-ordered list realizes
exactly the (length desc, identifier asc) order). -/
theorem c6_finalizer (reads_in : List Seq) (k m : Nat) :
    greedy_assemble_indexed reads_in k m
      = specFinalize (greedyRun reads_in k m).1 := by
  suffices hgen : ∀ st : AsmState, finalizeContigs st = specFinalize st by
    exact hgen _
  intro st
  unfold finalizeContigs specFinalize
  rw [map_snd_sortSpec _ (pairwise_activePairsFrom 0 st.reads),
    map_snd_activePairsFrom, ← flatten_filter_ne_nil (sortLenDesc (st.reads.filterMap id)),
    filter_sortLenDesc]

/-! Establishing the prefix-index invariant at `build_prefix_index`. -/

theorem insertL_mem {l : List Nat} {i j : Nat} :
    j ∈ insertL l i ↔ j ∈ l ∨ j = i := by
  unfold insertL
  split
  · constructor
    · exact Or.inl
    · intro h
      rcases h with h | h
      · exact h
      · subst h
        assumption
  · rw [List.mem_append, List.mem_singleton]

theorem insertL_nodup {l : List Nat} {i : Nat} (h : l.Nodup) :
    (insertL l i).Nodup := by
  unfold insertL
  split
  · exact h
  · rw [List.nodup_append]
    refine ⟨h, List.nodup_singleton i, ?_⟩
    intro a ha hb
    rw [List.mem_singleton] at hb
    subst hb
    contradiction

theorem buildGo_cons (k i0 : Nat) (r : Option Seq) (rest : List (Option Seq))
    (idx : Seq → List Nat) :
    buildGo k i0 (r :: rest) idx
      = buildGo k (i0+1) rest
          (match r with
            | none => idx
            | some s =>
              if s = [] ∨ s.length < k then idx
              else fun p => if p = s.take k then insertL (idx (s.take k)) i0 else idx p) := rfl

theorem buildGo_mem (k : Nat) (reads : List (Option Seq)) :
    ∀ (l : List (Option Seq)) (i0 : Nat) (idx : Seq → List Nat),
      l = reads.drop i0 →
      (∀ p j, j ∈ idx p ↔ (j < i0 ∧ ∃ s, reads.getD j none = some s
        ∧ s ≠ [] ∧ k ≤ s.length ∧ s.take k = p)) →
      ∀ p j, j ∈ buildGo k i0 l idx p ↔ (j < i0 + l.length
        ∧ ∃ s, reads.getD j none = some s
          ∧ s ≠ [] ∧ k ≤ s.length ∧ s.take k = p) := by
  intro l
  induction l with
  | nil =>
    intro i0 idx _ hidx p j
    rw [buildGo]
    simpa using hidx p j
  | cons r rest ih =>
    intro i0 idx hdrop hidx p j
    have hhead : reads.getD i0 none = r := by
      have h0 : (reads.drop i0)[0]? = some r := by
        rw [← hdrop]
        simp
      rw [List.getElem?_drop] at h0
      simp only [Nat.add_zero] at h0
      rw [List.getD_eq_getElem?_getD, h0]
      rfl
    have hrest : rest = reads.drop (i0 + 1) := by
      have h1 := List.drop_drop 1 i0 reads
      rw [← hdrop] at h1
      simpa using h1
    rw [buildGo_cons]
    have harg : ∀ p j,
        j ∈ (match r with
          | none => idx
          | some s =>
            if s = [] ∨ s.length < k then idx
            else fun p => if p = s.take k then insertL (idx (s.take k)) i0 else idx p) p
        ↔ (j < i0 + 1 ∧ ∃ s, reads.getD j none = some s
            ∧ s ≠ [] ∧ k ≤ s.length ∧ s.take k = p) := by
      intro p j
      have hsplit : j < i0 + 1 ↔ (j < i0 ∨ j = i0) := by omega
      cases r with
      | none =>
        dsimp only
        rw [hidx p j]
        constructor
        · intro ⟨h1, h2⟩
          exact ⟨by omega, h2⟩
        · intro ⟨h1, s, hs, h2⟩
          rcases hsplit.mp h1 with h3 | h3
          · exact ⟨h3, s, hs, h2⟩
          · subst h3
            rw [hhead] at hs
            cases hs
      | some s0 =>
        dsimp only
        by_cases hg : s0 = [] ∨ s0.length < k
        · rw [if_pos hg, hidx p j]
          constructor
          · intro ⟨h1, h2⟩
            exact ⟨by omega, h2⟩
          · intro ⟨h1, s, hs, hne, hk1, hk2⟩
            rcases hsplit.mp h1 with h3 | h3
            · exact ⟨h3, s, hs, hne, hk1, hk2⟩
            · subst h3
              rw [hhead] at hs
              cases hs
              exact absurd hg (by push_neg; exact ⟨hne, by omega⟩)
        · rw [if_neg hg]
          push_neg at hg
          by_cases hp : p = s0.take k
          · subst hp
            rw [if_pos rfl, insertL_mem, hidx _ j]
            constructor
            · intro h
              rcases h with ⟨h1, h2⟩ | h1
              · exact ⟨by omega, h2⟩
              · subst h1
                exact ⟨by omega, s0, hhead, hg.1, by omega, rfl⟩
            · intro ⟨h1, s, hs, hne, hk1, hk2⟩
              rcases hsplit.mp h1 with h3 | h3
              · exact Or.inl ⟨h3, s, hs, hne, hk1, hk2⟩
              · subst h3
                exact Or.inr rfl
          · rw [if_neg hp, hidx p j]
            constructor
            · intro ⟨h1, h2⟩
              exact ⟨by omega, h2⟩
            · intro ⟨h1, s, hs, hne, hk1, hk2⟩
              rcases hsplit.mp h1 with h3 | h3
              · exact ⟨h3, s, hs, hne, hk1, hk2⟩
              · subst h3
                rw [hhead] at hs
                cases hs
                exact absurd hk2.symm hp
    have hfin := ih (i0 + 1) _ hrest harg p j
    rw [hfin]
    constructor
    · intro ⟨h1, h2⟩
      refine ⟨?_, h2⟩
      simp only [List.length_cons]
      omega
    · intro ⟨h1, h2⟩
      simp only [List.length_cons] at h1
      exact ⟨by omega, h2⟩

theorem build_mem (k : Nat) (reads : List (Option Seq)) (p : Seq) (j : Nat) :
    j ∈ build_prefix_index reads k p
      ↔ ∃ s, reads.getD j none = some s
          ∧ s ≠ [] ∧ k ≤ s.length ∧ s.take k = p := by
  unfold build_prefix_index
  rw [buildGo_mem k reads reads 0 (fun _ => []) (by rfl) (by intro p j; simp) p j]
  constructor
  · intro ⟨_, h⟩
    exact h
  · intro ⟨s, hs, h⟩
    exact ⟨by have := getD_some_lt hs; omega, s, hs, h⟩

theorem buildGo_nodup (k : Nat) :
    ∀ (l : List (Option Seq)) (i0 : Nat) (idx : Seq → List Nat),
      (∀ p, (idx p).Nodup) → ∀ p, (buildGo k i0 l idx p).Nodup := by
  intro l
  induction l with
  | nil =>
    intro i0 idx h p
    exact h p
  | cons r rest ih =>
    intro i0 idx h p
    rw [buildGo_cons]
    refine ih (i0 + 1) _ ?_ p
    intro q
    cases r with
    | none => exact h q
    | some s0 =>
      dsimp only
      split
      · exact h q
      · dsimp only
        by_cases hq : q = s0.take k
        · rw [if_pos hq]
          exact insertL_nodup (h _)
        · rw [if_neg hq]
          exact h q

theorem initState_IdxInv (reads_in : List Seq) (k : Nat) (hk : 1 ≤ k) :
    IdxInv (initState reads_in k) k := by
  constructor
  · intro p i
    show i ∈ build_prefix_index (reads_in.map some) k p ↔ _
    rw [build_mem]
    constructor
    · intro ⟨s, hs, _, h2, h3⟩
      exact ⟨s, hs, h2, h3⟩
    · intro ⟨s, hs, h2, h3⟩
      have hne : s ≠ [] := by
        intro hc
        subst hc
        simp at h2
        omega
      exact ⟨s, hs, hne, h2, h3⟩
  · intro p
    exact buildGo_nodup k _ 0 _ (by intro q; exact List.nodup_nil) p

/-! Preservation of the prefix-index invariant across a merge-and-rebind
step. -/

theorem removeOld_active (idx : Seq → List Nat) (i k : Nat) (o : Seq)
    (h1 : o ≠ []) (h2 : k ≤ o.length) (hin : i ∈ idx (o.take k)) :
    removeOld idx i (some o) k
      = fun p => if p = o.take k then (idx (o.take k)).erase i else idx p := by
  unfold removeOld
  dsimp only
  rw [if_neg (by push_neg; exact ⟨h1, by omega⟩)]
  rw [if_pos ⟨List.ne_nil_of_mem hin, hin⟩]

theorem removeOld_short (idx : Seq → List Nat) (i k : Nat) (o : Seq)
    (h : o = [] ∨ o.length < k) :
    removeOld idx i (some o) k = idx := by
  unfold removeOld
  dsimp only
  rw [if_pos h]

theorem insertNew_long (idx : Seq → List Nat) (i k : Nat) (n : Seq)
    (h1 : n ≠ []) (h2 : k ≤ n.length) :
    insertNew idx i (some n) k
      = fun p => if p = n.take k then insertL (idx (n.take k)) i else idx p := by
  unfold insertNew
  dsimp only
  rw [if_neg (by push_neg; exact ⟨h1, by omega⟩)]

theorem insertNew_none (idx : Seq → List Nat) (i k : Nat) :
    insertNew idx i none k = idx := rfl

theorem mem_erase_iff_of_ne {a b : Nat} {l : List Nat} (h : a ≠ b) :
    a ∈ l.erase b ↔ a ∈ l :=
  List.mem_erase_of_ne h

theorem not_mem_erase_self {a : Nat} {l : List Nat} (h : l.Nodup) :
    a ∉ l.erase a := by
  intro hc
  exact absurd ((h.mem_erase_iff).mp hc).1 (by simp)

/-- The index invariant is preserved by the merge-and-rebind step of the
engine (the two `update_prefix_index` calls taken together). -/
theorem IdxInv_passStep (k m : Nat) (st : AsmState) (i : Nat)
    (hinv : IdxInv st k) : IdxInv (passStep k m st i).1 k := by
  rcases passStep_cases k m st i with hskip |
    ⟨r, j, rj, bol, hri, hr1, hkr, hjmem, hji, hrj, hrj1, hbol, hpos, hmb, heq⟩
  · rw [hskip]
    exact hinv
  · rw [heq]
    obtain ⟨hWF, hND⟩ := hinv
    have hilt : i < st.reads.length := getD_some_lt hri
    have hjlt : j < st.reads.length := getD_some_lt hrj
    have hm1 : r ++ rj.drop bol ≠ [] := by
      intro hc
      exact hr1 (List.append_eq_nil.mp hc).1
    have hm2 : k ≤ (r ++ rj.drop bol).length := by
      rw [List.length_append]
      omega
    have hmt : (r ++ rj.drop bol).take k = r.take k := by
      rw [List.take_append_of_le_length (by omega)]
    have hin : i ∈ st.idx (r.take k) := (hWF _ i).mpr ⟨r, hri, hkr, rfl⟩
    -- the combined effect of the first rebind call
    have hu1 : update_prefix_index st.idx i (some r) (some (r ++ rj.drop bol)) k
        = fun p => if p = r.take k
            then insertL ((st.idx (r.take k)).erase i) i
            else st.idx p := by
      show insertNew (removeOld st.idx i (some r) k) i (some (r ++ rj.drop bol)) k = _
      rw [removeOld_active st.idx i k r hr1 hkr hin,
        insertNew_long _ i k _ hm1 hm2, hmt]
      funext p
      by_cases hp : p = r.take k
      · simp only [if_pos hp, if_pos (rfl : r.take k = r.take k)]
        simp
      · simp only [if_neg hp]
    have hnd1 : ∀ p, ((fun p => if p = r.take k
        then insertL ((st.idx (r.take k)).erase i) i
        else st.idx p) p).Nodup := by
      intro p
      dsimp only
      by_cases hp : p = r.take k
      · rw [if_pos hp]
        exact insertL_nodup ((hND _).erase i)
      · rw [if_neg hp]
        exact hND p
    -- membership through the first rebind, for identifiers other than `i`
    have hu1mem : ∀ (p : Seq) (a : Nat), a ≠ i →
        (a ∈ (fun p => if p = r.take k
            then insertL ((st.idx (r.take k)).erase i) i
            else st.idx p) p ↔ a ∈ st.idx p) := by
      intro p a hai
      dsimp only
      by_cases hp : p = r.take k
      · rw [if_pos hp, insertL_mem, mem_erase_iff_of_ne hai]
        subst hp
        constructor
        · intro h
          rcases h with h | h
          · exact h
          · exact absurd h hai
        · exact Or.inl
      · rw [if_neg hp]
    -- membership of `i` through the first rebind
    have hu1memi : ∀ p : Seq,
        (i ∈ (fun p => if p = r.take k
            then insertL ((st.idx (r.take k)).erase i) i
            else st.idx p) p ↔ p = r.take k) := by
      intro p
      dsimp only
      by_cases hp : p = r.take k
      · rw [if_pos hp, insertL_mem]
        simp [hp]
      · rw [if_neg hp]
        constructor
        · intro h
          obtain ⟨s, hs, _, hst⟩ := (hWF p i).mp h
          rw [hri] at hs
          cases hs
          exact absurd hst.symm hp
        · intro h
          exact absurd h hp
    -- getD on the updated reads
    have hgi : ((st.reads.set i (some (r ++ rj.drop bol))).set j none).getD i none
        = some (r ++ rj.drop bol) := by
      rw [getD_set_ne _ _ hji]
      exact getD_set_self _ _ hilt
    have hgj : ((st.reads.set i (some (r ++ rj.drop bol))).set j none).getD j none
        = none := by
      exact getD_set_self _ _ (by rw [List.length_set]; exact hjlt)
    have hga : ∀ a : Nat, a ≠ i → a ≠ j →
        ((st.reads.set i (some (r ++ rj.drop bol))).set j none).getD a none
          = st.reads.getD a none := by
      intro a hai haj
      rw [getD_set_ne _ _ (fun hc => haj hc.symm),
        getD_set_ne _ _ (fun hc => hai hc.symm)]
    by_cases hkrj : k ≤ rj.length
    · -- the retired fragment was indexed: its binding is erased
      have hjin : j ∈ st.idx (rj.take k) := (hWF _ j).mpr ⟨rj, hrj, hkrj, rfl⟩
      have hjin1 : j ∈ (fun p => if p = r.take k
          then insertL ((st.idx (r.take k)).erase i) i
          else st.idx p) (rj.take k) := (hu1mem _ j hji).mpr hjin
      have hu2 : update_prefix_index
            (update_prefix_index st.idx i (some r) (some (r ++ rj.drop bol)) k)
            j (some rj) none k
          = fun p => if p = rj.take k
              then (((fun p => if p = r.take k
                  then insertL ((st.idx (r.take k)).erase i) i
                  else st.idx p)) (rj.take k)).erase j
              else (fun p => if p = r.take k
                  then insertL ((st.idx (r.take k)).erase i) i
                  else st.idx p) p := by
        show insertNew (removeOld _ j (some rj) k) j none k = _
        rw [insertNew_none]
        rw [hu1]
        exact removeOld_active _ j k rj hrj1 hkrj hjin1
      constructor
      · intro p a
        dsimp only
        rw [hu2]
        by_cases hai : a = i
        · subst hai
          dsimp only
          constructor
          · intro h
            by_cases hp : p = rj.take k
            · rw [if_pos hp, mem_erase_iff_of_ne hji.symm] at h
              have hpr := (hu1memi _).mp h
              exact ⟨r ++ rj.drop bol, hgi, hm2, by rw [hmt, ← hpr, hp]⟩
            · rw [if_neg hp] at h
              have hpr := (hu1memi _).mp h
              exact ⟨r ++ rj.drop bol, hgi, hm2, by rw [hmt, ← hpr]⟩
          · intro ⟨s, hs, hks, hst⟩
            rw [hgi] at hs
            cases hs
            have hpr : p = r.take k := by rw [← hst, hmt]
            by_cases hp : p = rj.take k
            · rw [if_pos hp, mem_erase_iff_of_ne hji.symm]
              exact (hu1memi _).mpr (hp.symm.trans hpr)
            · rw [if_neg hp]
              exact (hu1memi _).mpr hpr
        · by_cases haj : a = j
          · subst haj
            dsimp only
            constructor
            · intro h
              exfalso
              by_cases hp : p = rj.take k
              · rw [if_pos hp] at h
                exact not_mem_erase_self (hnd1 _) h
              · rw [if_neg hp, hu1mem _ _ hji] at h
                obtain ⟨s, hs, hks, hst⟩ := (hWF p a).mp h
                rw [hrj] at hs
                cases hs
                exact hp hst.symm
            · intro ⟨s, hs, _, _⟩
              rw [hgj] at hs
              cases hs
          · dsimp only
            have hmem : a ∈ (if p = rj.take k
                then (((fun p => if p = r.take k
                    then insertL ((st.idx (r.take k)).erase i) i
                    else st.idx p)) (rj.take k)).erase j
                else (fun p => if p = r.take k
                    then insertL ((st.idx (r.take k)).erase i) i
                    else st.idx p) p) ↔ a ∈ st.idx p := by
              by_cases hp : p = rj.take k
              · rw [if_pos hp, mem_erase_iff_of_ne haj, hu1mem _ _ hai, hp]
              · rw [if_neg hp, hu1mem _ _ hai]
            rw [hmem, hWF p a]
            constructor
            · intro ⟨s, hs, h2⟩
              exact ⟨s, by rw [hga a hai haj]; exact hs, h2⟩
            · intro ⟨s, hs, h2⟩
              rw [hga a hai haj] at hs
              exact ⟨s, hs, h2⟩
      · intro p
        rw [hu2]
        dsimp only
        by_cases hp : p = rj.take k
        · rw [if_pos hp]
          exact ((hnd1 _)).erase j
        · rw [if_neg hp]
          exact hnd1 p
    · -- the retired fragment was too short to be indexed: nothing to remove
      have hu2 : update_prefix_index
            (update_prefix_index st.idx i (some r) (some (r ++ rj.drop bol)) k)
            j (some rj) none k
          = fun p => if p = r.take k
              then insertL ((st.idx (r.take k)).erase i) i
              else st.idx p := by
        show insertNew (removeOld _ j (some rj) k) j none k = _
        rw [insertNew_none, removeOld_short _ j k rj (Or.inr (by omega)), hu1]
      constructor
      · intro p a
        dsimp only
        rw [hu2]
        by_cases hai : a = i
        · subst hai
          rw [hu1memi p]
          constructor
          · intro hpr
            exact ⟨r ++ rj.drop bol, hgi, hm2, by rw [hmt, ← hpr]⟩
          · intro ⟨s, hs, hks, hst⟩
            rw [hgi] at hs
            cases hs
            rw [← hst, hmt]
        · by_cases haj : a = j
          · subst haj
            rw [hu1mem _ _ hji]
            constructor
            · intro h
              exfalso
              obtain ⟨s, hs, hks, _⟩ := (hWF p a).mp h
              rw [hrj] at hs
              cases hs
              omega
            · intro ⟨s, hs, _, _⟩
              rw [hgj] at hs
              cases hs
          · rw [hu1mem _ _ hai, hWF p a]
            constructor
            · intro ⟨s, hs, h2⟩
              exact ⟨s, by rw [hga a hai haj]; exact hs, h2⟩
            · intro ⟨s, hs, h2⟩
              rw [hga a hai haj] at hs
              exact ⟨s, hs, h2⟩
      · intro p
        rw [hu2]
        exact hnd1 p

/-! C2 — the prefix-index invariant. -/

/-- C2: for every minimum prefix length `k ≥ 1`, the Prefix Index
invariant — every `Active` (non-`None`) fragment of length `≥ k` is in
exactly the bucket keyed by its first `k` characters, no fragment of
length `< k` appears anywhere, and `Retired` (`None`) fragments never
appear (together with duplicate-freeness of the buckets, mirroring Python
sets) — holds after the initial `build_prefix_index` and is preserved by
every step of the engine's scan, in particular by every merge-and-rebind
step; hence it holds at every point during assembly. -/
theorem c2_index_invariant (reads_in : List Seq) (k m : Nat) (hk : 1 ≤ k) :
    IdxInv (initState reads_in k) k
    ∧ ∀ (st : AsmState) (i : Nat), IdxInv st k → IdxInv (passStep k m st i).1 k :=
  ⟨initState_IdxInv reads_in k hk,
    fun st i hinv => IdxInv_passStep k m st i hinv⟩

/-- C2, witness: the single-fragment input `["A"]` with `k = 1`, stepping
the engine once at position `0`. -/
theorem c2_index_invariant_witness :
    (1 : Nat) ≤ 1
    ∧ IdxInv (initState [['A']] 1) 1
    ∧ IdxInv (passStep 1 1 (initState [['A']] 1) 0).1 1 :=
  ⟨by decide, (c2_index_invariant [['A']] 1 1 (by decide)).1,
    (c2_index_invariant [['A']] 1 1 (by decide)).2 (initState [['A']] 1) 0
      (c2_index_invariant [['A']] 1 1 (by decide)).1⟩

/-! C1 — the Overlap Matcher. -/

/-- The check `a[-L:] == b[:L]` performed by the code. -/
def pyValid (a b : Seq) (L : Nat) : Prop :=
  pySfx a L = pyPfx b L

theorem pyValid_iff_specValid (a b : Seq) {L : Nat} (hL : 1 ≤ L) :
    pyValid a b L ↔ specValid a b L := by
  unfold pyValid specValid pySfx pyPfx
  rw [if_neg (Nat.one_le_iff_ne_zero.mp hL)]

theorem olScan_spec (a b : Seq) (m : Nat) (hm : 1 ≤ m) : ∀ olen : Nat,
    (olScan a b m olen = 0 ∧ ∀ L, m ≤ L → L ≤ olen → ¬ pyValid a b L)
    ∨ (m ≤ olScan a b m olen ∧ olScan a b m olen ≤ olen
        ∧ pyValid a b (olScan a b m olen)
        ∧ ∀ L, m ≤ L → L ≤ olen → pyValid a b L → L ≤ olScan a b m olen) := by
  intro olen
  induction olen with
  | zero =>
    left
    refine ⟨rfl, ?_⟩
    intro L hmL hL0
    omega
  | succ n ih =>
    by_cases hlt : n + 1 < m
    · left
      rw [olScan, if_pos hlt]
      exact ⟨rfl, fun L hmL hLn => by omega⟩
    · by_cases hv : pySfx a (n+1) = pyPfx b (n+1)
      · right
        rw [olScan, if_neg hlt, if_pos hv]
        exact ⟨by omega, Nat.le_refl _, hv, fun L _ hL _ => hL⟩
      · rw [olScan, if_neg hlt, if_neg hv]
        rcases ih with ⟨h0, hall⟩ | ⟨h1, h2, h3, h4⟩
        · left
          refine ⟨h0, ?_⟩
          intro L hmL hLn hLv
          rcases Nat.lt_or_ge L (n+1) with h | h
          · exact hall L hmL (by omega) hLv
          · have : L = n + 1 := by omega
            subst this
            exact hv hLv
        · right
          refine ⟨h1, by omega, h3, ?_⟩
          intro L hmL hLn hLv
          rcases Nat.lt_or_ge L (n+1) with h | h
          · exact h4 L hmL (by omega) hLv
          · have : L = n + 1 := by omega
            subst this
            exact absurd hLv hv

/-- C1: the claim says `longest_overlap` always returns the largest valid
overlap length; but its first step rejects whenever the length-`m` suffix
of `A` differs from the length-`m` prefix of `B`, a condition *not*
implied by the existence of a longer valid overlap.  At `A = B = "AB"`,
`m = 1`, the overlap `L = 2` is valid, yet the code returns `0`. -/
theorem c1_counterexample :
    longest_overlap ['A', 'B'] ['A', 'B'] 1 = 0
      ∧ ¬ isLargestOverlap ['A', 'B'] ['A', 'B'] 1
          (longest_overlap ['A', 'B'] ['A', 'B'] 1) := by
  have h0 : longest_overlap ['A', 'B'] ['A', 'B'] 1 = 0 := by rfl
  refine ⟨h0, ?_⟩
  intro h
  rcases h with ⟨_, hnone⟩ | ⟨h1, _⟩
  · exact hnone 2 (by decide) (by decide) (by unfold specValid; decide)
  · rw [h0] at h1
    omega

/-- C1 amended: `longest_overlap(A, B, m)` (for `m ≥ 1`) returns the
largest integer `L` with `m ≤ L ≤ min(len A, len B)` such that the last
`L` characters of `A` equal the first `L` characters of `B` — *provided*
the length-`m` suffix of `A` equals the length-`m` prefix of `B`; when
that initial check fails it returns `0` even if a larger valid `L`
exists. -/
theorem c1_amended (a b : Seq) (m : Nat) (hm : 1 ≤ m) :
    (pySfx a m = pyPfx b m →
      isLargestOverlap a b m (longest_overlap a b m))
    ∧ (pySfx a m ≠ pyPfx b m → longest_overlap a b m = 0) := by
  constructor
  · intro hguard
    have hne : ¬ pySfx a m ≠ pyPfx b m := fun hc => hc hguard
    have hres : longest_overlap a b m = olScan a b m (min a.length b.length) := by
      unfold longest_overlap
      rw [if_neg hne]
    rcases olScan_spec a b m hm (min a.length b.length) with ⟨h0, hall⟩ | ⟨h1, h2, h3, h4⟩
    · left
      rw [hres]
      refine ⟨h0, ?_⟩
      intro L hmL hLmin hv
      exact hall L hmL hLmin ((pyValid_iff_specValid a b (by omega)).mpr hv)
    · right
      rw [hres]
      refine ⟨h1, h2, (pyValid_iff_specValid a b (by omega)).mp h3, ?_⟩
      intro L hmL hLmin hv
      exact h4 L hmL hLmin ((pyValid_iff_specValid a b (by omega)).mpr hv)
  · intro hguard
    unfold longest_overlap
    rw [if_pos hguard]

/-- C1 amended, witness: fragments `"ACGTACG"`, `"TACGTTT"` with `m = 4`
(the spec's concrete scenario 1; the computed overlap is 4). -/
theorem c1_amended_witness :
    1 ≤ 4
    ∧ pySfx ['A', 'C', 'G', 'T', 'A', 'C', 'G'] 4
        = pyPfx ['T', 'A', 'C', 'G', 'T', 'T', 'T'] 4
    ∧ isLargestOverlap ['A', 'C', 'G', 'T', 'A', 'C', 'G']
        ['T', 'A', 'C', 'G', 'T', 'T', 'T'] 4
        (longest_overlap ['A', 'C', 'G', 'T', 'A', 'C', 'G']
          ['T', 'A', 'C', 'G', 'T', 'T', 'T'] 4) :=
  ⟨by decide, by decide,
    (c1_amended ['A', 'C', 'G', 'T', 'A', 'C', 'G']
      ['T', 'A', 'C', 'G', 'T', 'T', 'T'] 4 (by decide)).1 (by decide)⟩

/-- C7: the claim says that a rebind call removing a binding absent from
its expected bucket fails with a fatal assertion; in the code the removal
is guarded by `if s and i in s`, so the call completes and (with
`new = None`) returns the index unchanged — refuted at a concrete input. -/
theorem c7_counterexample :
    update_prefix_index (fun _ => []) 0 (some ['A', 'A', 'A', 'A']) none 4
      = (fun _ => []) := by
  rfl

/-- C7 amended: a rebind call asked to remove a binding that does not
exist (the identifier is absent from its expected bucket) completes as a
recoverable no-op: with `new = None` the index is returned unchanged, and
no error of any kind is raised (the function is total). -/
theorem c7_amended (idx : Seq → List Nat) (i : Nat) (o : Seq) (k : Nat)
    (h : i ∉ idx (o.take k)) :
    update_prefix_index idx i (some o) none k = idx := by
  show insertNew (removeOld idx i (some o) k) i none k = idx
  unfold insertNew removeOld
  by_cases h0 : o = [] ∨ o.length < k
  · simp only [if_pos h0]
  · simp only [if_neg h0]
    have hc1 : ¬(idx (o.take k) ≠ [] ∧ i ∈ idx (o.take k)) := by
      intro hc
      exact h hc.2
    simp only [if_neg hc1]

/-- C7 amended, witness at a concrete input. -/
theorem c7_amended_witness :
    update_prefix_index (fun p => if p = ['B'] then [1] else []) 0
      (some ['A']) none 1 = (fun p => if p = ['B'] then [1] else []) :=
  c7_amended (fun p => if p = ['B'] then [1] else []) 0 ['A'] 1 (by decide)

/-! C8 — no configuration-error validation in the engine. -/

/-- C8: the claim says a minimum-overlap threshold exceeding the shortest
fragment length is reported immediately as a fatal failure; the code
performs no validation: with fragments `["AA", "AA"]` and threshold `5`
the engine completes normally and returns the assembled output `"AAAA"`. -/
theorem c8_counterexample :
    greedy_assemble_indexed [['A', 'A'], ['A', 'A']] 5 5 = ['A', 'A', 'A', 'A']
      ∧ (greedyRun [['A', 'A'], ['A', 'A']] 5 5).2.2 = 0 := by
  constructor
  · rfl
  · rfl

/-- With threshold `k = 0` a pass step never merges: the suffix lookup key
is `r[-0:] = r`, the whole (nonempty) sequence, while every bucket of the
index is keyed by a `0`-prefix, i.e. the empty string — so the candidate
set is always empty. -/
theorem passStep_skip_zero {m : Nat} {st : AsmState} {i : Nat}
    (hidx : ∀ r : Seq, r ≠ [] → st.idx r = []) :
    passStep 0 m st i = (st, 0) := by
  unfold passStep
  cases hri : st.reads.getD i none with
  | none => rfl
  | some r =>
    dsimp only
    by_cases hr : r = [] ∨ r.length < 0
    · rw [if_pos hr]
    · rw [if_neg hr]
      push_neg at hr
      have hsuf : pySfx r 0 = r := by
        unfold pySfx
        rw [if_pos rfl]
      rw [hsuf, if_pos (hidx r hr.1)]

/-- C8 amended: the engine performs no validation of its thresholds and
never reports a configuration error.  Invoked with a non-positive
threshold (`k = 0`) or with a threshold exceeding every fragment length,
it completes normally with zero merges and returns the concatenation of
the fragments in descending-length (stable) order. -/
theorem c8_amended (reads_in : List Seq) (k m : Nat)
    (h : k = 0 ∨ ∀ r ∈ reads_in, r.length < k) :
    greedy_assemble_indexed reads_in k m
        = (sortLenDesc (reads_in.filter (fun s => s ≠ []))).flatten
      ∧ (greedyRun reads_in k m).2.2 = 0 := by
  have hskip : ∀ i, passStep k m (initState reads_in k) i = (initState reads_in k, 0) := by
    rcases h with hk0 | hsh
    · subst hk0
      intro i
      apply passStep_skip_zero
      intro r hr
      rw [List.eq_nil_iff_forall_not_mem]
      intro j hj
      have hj' : j ∈ build_prefix_index (reads_in.map some) 0 r := hj
      rw [build_mem] at hj'
      obtain ⟨s, _, _, _, hst⟩ := hj'
      exact hr (by rw [← hst, List.take_zero])
    · intro i
      apply passStep_skip_short
      intro s hs
      exact Or.inr (hsh s (getD_map_some_mem hs))
  have hpass : onePass k m (initState reads_in k) = (initState reads_in k, 0) :=
    onePass_of_skip hskip
  have hrun : greedyRun reads_in k m = (initState reads_in k, 1, 0) := by
    unfold greedyRun loopFuel
    rw [hpass]
    rfl
  constructor
  · unfold greedy_assemble_indexed
    rw [hrun]
    unfold finalizeContigs initState
    have : (reads_in.map some).filterMap id = reads_in := by
      rw [List.filterMap_map]
      simp [List.filterMap_some]
    rw [this]
  · rw [hrun]

/-- C8 amended, witness: fragments `["AA", "AA"]` first with threshold `5`
(exceeding every fragment length) and then with threshold `0`
(non-positive); both hypotheses are discharged at the concrete inputs. -/
theorem c8_amended_witness :
    (greedy_assemble_indexed [['A', 'A'], ['A', 'A']] 5 5
        = (sortLenDesc ([[ 'A', 'A'], ['A', 'A']].filter (fun s => s ≠ []))).flatten
      ∧ (greedyRun [['A', 'A'], ['A', 'A']] 5 5).2.2 = 0)
    ∧ (greedy_assemble_indexed [['A', 'A'], ['A', 'A']] 0 0
        = (sortLenDesc ([[ 'A', 'A'], ['A', 'A']].filter (fun s => s ≠ []))).flatten
      ∧ (greedyRun [['A', 'A'], ['A', 'A']] 0 0).2.2 = 0) :=
  ⟨c8_amended [['A', 'A'], ['A', 'A']] 5 5 (Or.inr (by decide)),
    c8_amended [['A', 'A'], ['A', 'A']] 0 0 (Or.inl rfl)⟩

/-! C9 — the self-similar full-overlap scenario. -/

/-- C9: on fragments `["AAAA", "AAAA"]` with `k = 4` the engine performs
exactly one merge (a fragment is never matched against itself), the
merged sequence is `"AAAA"`, exactly one fragment remains `Active`, and
the output is `"AAAA"`. -/
theorem c9_self_similar :
    greedy_assemble_indexed [['A', 'A', 'A', 'A'], ['A', 'A', 'A', 'A']] 4 4
        = ['A', 'A', 'A', 'A']
      ∧ (greedyRun [['A', 'A', 'A', 'A'], ['A', 'A', 'A', 'A']] 4 4).2.2 = 1
      ∧ activeCount (greedyRun [['A', 'A', 'A', 'A'], ['A', 'A', 'A', 'A']] 4 4).1 = 1
      ∧ (greedyRun [['A', 'A', 'A', 'A'], ['A', 'A', 'A', 'A']] 4 4).1.reads.getD 0 none
          = some ['A', 'A', 'A', 'A'] := by
  refine ⟨by decide, by decide, by decide, by decide⟩

end BioAsm
